import Mathlib

/-!
Verification of the atomix raft-storage core against its specification.

This file shallowly embeds the parts of the Go source that the checked
claims are about:

  * pkg/atomix/raft/snapshot.go  — in-memory snapshot store and snapshots
  * pkg/atomix/raft/appender.go  — leader appender (commit arithmetic,
    heartbeat futures) and per-member appender (batching, response handling)
  * pkg/atomix/raft/roles/follower.go — follower role wrappers that manage
    the heartbeat timer, and the single-node start path

Go machine integers (int64, uint64 cast types Term and Index) are modelled
as Int; protobuf byte payloads as List UInt8; Go maps as association lists
with the Go zero-value read semantics; Go channels are modelled by the
values that the code sends into them and by channel identities where the
identity itself matters.
-/

namespace Raft

/-- Association-list update with Go map semantics: assignment replaces the
value of an existing key and otherwise adds the key. -/
def assocPut {κ ν : Type} [DecidableEq κ] (m : List (κ × ν)) (k : κ) (v : ν) :
    List (κ × ν) :=
  if m.any (fun p => p.1 = k) then
    m.map (fun p => if p.1 = k then (k, v) else p)
  else
    m ++ [(k, v)]

/-- Association-list read with Go map semantics: a missing key reads as the
zero value supplied as the default. -/
def assocGet {κ ν : Type} [DecidableEq κ] (m : List (κ × ν)) (k : κ) (d : ν) : ν :=
  match m.find? (fun p => p.1 = k) with
  | some p => p.2
  | none => d

/-! ### Snapshot store (snapshot.go)

A memorySnapshot holds an index, a timestamp and a byte slice. The field
`bytes` models the visible contents of the Go slice header stored in the
struct (its length-delimited prefix); the 1 MiB capacity pre-allocation is
invisible to reads and is not modelled. -/

structure MemorySnapshot where
  index : Int
  timestamp : Int
  bytes : List UInt8
  deriving Repr, DecidableEq

/-- Go: memorySnapshot with an empty bytes slice, as allocated by
memorySnapshotStore.newSnapshot. -/
def newMemorySnapshot (index timestamp : Int) : MemorySnapshot :=
  { index := index, timestamp := timestamp, bytes := [] }

/-- Go memoryWriter: it wraps bytes.NewBuffer(s.bytes). The buffer starts
from the current snapshot bytes but owns its own slice header from then on;
writes append to the buffer, not to the snapshot struct. -/
structure MemoryWriter where
  buf : List UInt8
  deriving Repr, DecidableEq

/-- Go: s.Writer() — build the writer over bytes.NewBuffer(s.bytes). -/
def memorySnapshotWriter (s : MemorySnapshot) : MemoryWriter :=
  { buf := s.bytes }

/-- Go: memoryWriter.Write appends p to the internal buffer and reports
len(p) written with no error. -/
def memoryWriterWrite (w : MemoryWriter) (p : List UInt8) : MemoryWriter × Nat :=
  ({ buf := w.buf ++ p }, p.length)

/-- Go: memoryWriter.Close() returns nil and performs no write-back into the
snapshot struct; the snapshot it was opened on is returned unchanged. -/
def memoryWriterClose (_ : MemoryWriter) (s : MemorySnapshot) : MemorySnapshot :=
  s

/-- Go: s.Reader() wraps bytes.NewReader(s.bytes); reading it to exhaustion
yields exactly the snapshot bytes field. -/
def memorySnapshotReadAll (s : MemorySnapshot) : List UInt8 :=
  s.bytes

/-- Round trip of snapshot.go as written: create a snapshot, open its
writer, write data, close the writer, then open a reader and read all. -/
def snapshotRoundTrip (index timestamp : Int) (data : List UInt8) : List UInt8 :=
  let s := newMemorySnapshot index timestamp
  let w := memorySnapshotWriter s
  let wrote := memoryWriterWrite w data
  let s1 := memoryWriterClose wrote.1 s
  memorySnapshotReadAll s1

/-- Go memorySnapshotStore: a map from index to snapshot plus the
currentSnapshot pointer. -/
structure MemorySnapshotStore where
  snapshots : List (Int × MemorySnapshot)
  currentSnapshot : Option MemorySnapshot
  deriving Repr, DecidableEq

/-- Go: newMemorySnapshotStore() — empty map, nil current snapshot. -/
def newMemorySnapshotStore : MemorySnapshotStore :=
  { snapshots := [], currentSnapshot := none }

/-- Go: memorySnapshotStore.newSnapshot stores the fresh snapshot under its
index and unconditionally makes it the current snapshot. -/
def storeNewSnapshot (st : MemorySnapshotStore) (index timestamp : Int) :
    MemorySnapshotStore × MemorySnapshot :=
  let s := newMemorySnapshot index timestamp
  ({ snapshots := assocPut st.snapshots index s, currentSnapshot := some s }, s)

/-- Run a sequence of newSnapshot calls against an initially empty store. -/
def runNewSnapshots (calls : List (Int × Int)) : MemorySnapshotStore :=
  calls.foldl (fun st c => (storeNewSnapshot st c.1 c.2).1) newMemorySnapshotStore

/-- C4: the spec requires the snapshot write/read round trip to return the
written bytes; in snapshot.go the writer mutates only the buffer wrapped by
bytes.NewBuffer and Close never writes back, so a reader opened after the
writer closes sees the original empty slice. Writing the single byte 0x41
and reading back yields the empty sequence, not [0x41]. -/
theorem snapshot_write_read_roundtrip_lost :
    snapshotRoundTrip 1 0 [65] = [] ∧ ([] : List UInt8) ≠ [65] := by
  constructor
  · rfl
  · decide

/-- C5 counterexample: creating snapshots at index 5 and then at index 3
leaves CurrentSnapshot at index 3, the most recently created snapshot, even
though the highest index among created snapshots is 5. -/
theorem currentSnapshot_not_highest_index :
    ((runNewSnapshots [(5, 0), (3, 0)]).currentSnapshot).map MemorySnapshot.index
        = some 3
      ∧ (runNewSnapshots [(5, 0), (3, 0)]).snapshots.map Prod.fst = [5, 3]
      ∧ (3 : Int) ≠ 5 := by
  refine ⟨rfl, rfl, by decide⟩

/-- C5 amended: CurrentSnapshot returns none when no snapshot has been
created and otherwise returns the most recently created snapshot; when the
call indexes are nondecreasing this coincides with the highest-index
snapshot. -/
theorem currentSnapshot_is_last_created :
    (runNewSnapshots []).currentSnapshot = none
      ∧ (∀ calls c, (runNewSnapshots (calls ++ [c])).currentSnapshot
          = some (newMemorySnapshot c.1 c.2))
      ∧ (∀ calls c, (∀ p ∈ calls, p.1 ≤ c.1) →
          ∀ s, (runNewSnapshots (calls ++ [c])).currentSnapshot = some s →
            ∀ q ∈ calls ++ [c], q.1 ≤ s.index) := by
  refine ⟨rfl, ?_, ?_⟩
  · intro calls c
    simp [runNewSnapshots, List.foldl_append, storeNewSnapshot]
  · intro calls c hle s hs q hq
    have hcur : (runNewSnapshots (calls ++ [c])).currentSnapshot
        = some (newMemorySnapshot c.1 c.2) := by
      simp [runNewSnapshots, List.foldl_append, storeNewSnapshot]
    rw [hcur] at hs
    cases hs
    rcases List.mem_append.mp hq with hq | hq
    · exact hle q hq
    · simp at hq
      simp [hq, newMemorySnapshot]

/-- C5 witness: creating snapshots at indexes 1 then 2 (nondecreasing)
leaves every created index at or below the index of the current
snapshot. -/
theorem currentSnapshot_is_last_created_witness :
    ((1 : Int), (0 : Int)).1 ≤ (newMemorySnapshot 2 0).index :=
  currentSnapshot_is_last_created.2.2 [((1 : Int), (0 : Int))] ((2 : Int), (0 : Int))
    (by decide) (newMemorySnapshot 2 0) (by rfl) ((1 : Int), (0 : Int)) (by decide)

/-! ### Leader appender (appender.go): commit index arithmetic

The raftAppender aggregates per-member match indexes. Go sorts the slice of
recorded indexes with sort.Slice ascending; on Int values any correct sort
produces the same list, so an executable insertion sort stands in for
sort.Slice here. -/

/-- Insert a value into an ascending-sorted list of Int. -/
def sortInsert (x : Int) : List Int → List Int
  | [] => [x]
  | y :: t => if x ≤ y then x :: y :: t else y :: sortInsert x t

/-- Ascending sort of Int values, the observable behaviour of
sort.Slice(indexes, func(i, j) \x7b return indexes[i] < indexes[j] \x7d). -/
def sortInts : List Int → List Int
  | [] => []
  | x :: t => sortInsert x (sortInts t)

/-- State of the raftAppender relevant to commit advancement: the peer
member ids (the cluster members other than the local one, as collected by
newAppender), the commitIndexes map, the registered commit-notification
channels keyed by index, and the server commitIndex field that
setCommitIndex writes. -/
structure RaftAppender where
  members : List String
  commitIndexes : List (String × Int)
  commitChannels : List Int
  serverCommitIndex : Int
  deriving Repr, DecidableEq

/-- Go builds indexes := make([]int64, len(a.members)) and copies the map
values into its prefix; keys absent from the map leave zero slots. -/
def commitIndexesSlice (members : List String) (commitIndexes : List (String × Int)) :
    List Int :=
  commitIndexes.map Prod.snd ++ List.replicate (members.length - commitIndexes.length) 0

/-- Consecutive Int values starting at start, n of them. -/
def commitRangeAux (start : Int) : Nat → List Int
  | 0 => []
  | n + 1 => start :: commitRangeAux (start + 1) n

/-- The indexes i with old < i ≤ median, in increasing order: the loop
for i := a.server.commitIndex + 1; i <= commitIndex; i++ visits exactly
these values. -/
def commitRange (old median : Int) : List Int :=
  commitRangeAux (old + 1) (median - old).toNat

/-- Result of raftAppender.commitIndex: the updated appender, the indexes
passed to setCommitIndex in call order, and the registered channels
resolved (by index) in call order. -/
structure CommitIndexResult where
  appender : RaftAppender
  notified : List Int
  resolved : List Int
  deriving Repr, DecidableEq

/-- Go raftAppender.commitIndex(member, index): when the event raises the
recorded index of that peer, update the map, sort the recorded indexes
(zero-padded to the member count), pick sorted[len(members)/2], and for
each i from the current server commitIndex + 1 up to that value call
setCommitIndex(i) and send on the commit channel registered for i, if
any. Otherwise do nothing. -/
def raftAppenderCommitIndex (a : RaftAppender) (member : String) (index : Int) :
    CommitIndexResult :=
  let prevIndex := assocGet a.commitIndexes member 0
  if prevIndex < index then
    let ci := assocPut a.commitIndexes member index
    let indexes := sortInts (commitIndexesSlice a.members ci)
    let commitIndex := indexes.getD (a.members.length / 2) 0
    let notified := commitRange a.serverCommitIndex commitIndex
    { appender :=
        { a with
          commitIndexes := ci,
          serverCommitIndex := notified.foldl (fun _ i => i) a.serverCommitIndex },
      notified := notified,
      resolved := notified.filter (fun i => a.commitChannels.contains i) }
  else
    { appender := a, notified := [], resolved := [] }

/-- The median the code selects for a raising MemberCommit event: the entry
at position len(members)/2 of the ascending-sorted recorded indexes. -/
def sortedMedian (a : RaftAppender) (member : String) (index : Int) : Int :=
  (sortInts (commitIndexesSlice a.members (assocPut a.commitIndexes member index))).getD
    (a.members.length / 2) 0

theorem foldl_keep_last (l : List Int) (i : Int) :
    l.foldl (fun _ x => x) i = l.getLastD i := by
  induction l generalizing i with
  | nil => rfl
  | cons a t ih =>
    cases t with
    | nil => rfl
    | cons b u => simpa using ih b

theorem commitRangeAux_getLastD (n : Nat) : ∀ (s d : Int),
    (commitRangeAux s (n + 1)).getLastD d = s + n := by
  induction n with
  | zero => intro s d; simp [commitRangeAux]
  | succ m ih =>
    intro s d
    show (s :: commitRangeAux (s + 1) (m + 1)).getLastD d = s + (m + 1)
    rw [List.getLastD_cons, ih (s + 1) s]
    omega

theorem mem_commitRangeAux (n : Nat) : ∀ (s i : Int),
    i ∈ commitRangeAux s n ↔ s ≤ i ∧ i < s + n := by
  induction n with
  | zero => intro s i; simp [commitRangeAux]
  | succ m ih =>
    intro s i
    show i ∈ s :: commitRangeAux (s + 1) m ↔ _
    rw [List.mem_cons, ih (s + 1) i]
    constructor
    · rintro (rfl | ⟨h1, h2⟩) <;> constructor <;> push_cast <;> omega
    · rintro ⟨h1, h2⟩
      rcases eq_or_lt_of_le h1 with rfl | hlt
      · exact Or.inl rfl
      · exact Or.inr ⟨by omega, by push_cast at h2 ⊢; omega⟩

theorem commitRangeAux_pairwise (n : Nat) : ∀ (s : Int),
    (commitRangeAux s n).Pairwise (· < ·) := by
  induction n with
  | zero => intro s; simp [commitRangeAux]
  | succ m ih =>
    intro s
    show (s :: commitRangeAux (s + 1) m).Pairwise (· < ·)
    refine List.pairwise_cons.mpr ⟨fun j hj => ?_, ih (s + 1)⟩
    have := (mem_commitRangeAux m (s + 1) j).mp hj
    omega

theorem commitRange_getLastD (old median : Int) :
    (commitRange old median).getLastD old = max old median := by
  unfold commitRange
  rcases Nat.eq_zero_or_pos (median - old).toNat with h0 | hpos
  · rw [h0]
    show old = max old median
    omega
  · obtain ⟨n, hn⟩ := Nat.exists_eq_succ_of_ne_zero (Nat.pos_iff_ne_zero.mp hpos)
    rw [hn, commitRangeAux_getLastD n (old + 1) old]
    omega

theorem mem_commitRange (old median i : Int) (h : i ∈ commitRange old median) :
    old < i ∧ i ≤ median := by
  unfold commitRange at h
  have := (mem_commitRangeAux (median - old).toNat (old + 1) i).mp h
  omega

/-- C1: on a MemberCommit event that raises the recorded index of the peer,
the appender advances the server commitIndex to the median entry
sorted[len(members)/2] of the recorded peer indexes (never below the old
value), calls setCommitIndex on exactly the indexes in (old, median] in
strictly increasing order, and resolves exactly the registered
commit-notification channels among them; the server commitIndex never
decreases, on this or any other event. -/
theorem raftAppenderCommitIndex_run (a : RaftAppender) (member : String) (index : Int)
    (hraise : assocGet a.commitIndexes member 0 < index) :
    raftAppenderCommitIndex a member index
      = { appender :=
            { a with
              commitIndexes := assocPut a.commitIndexes member index,
              serverCommitIndex :=
                (commitRange a.serverCommitIndex (sortedMedian a member index)).foldl
                  (fun _ i => i) a.serverCommitIndex },
          notified := commitRange a.serverCommitIndex (sortedMedian a member index),
          resolved :=
            (commitRange a.serverCommitIndex (sortedMedian a member index)).filter
              (fun i => a.commitChannels.contains i) } := by
  unfold raftAppenderCommitIndex
  rw [if_pos hraise]
  rfl

theorem raftAppenderCommitIndex_mono (a : RaftAppender) (m : String) (j : Int) :
    a.serverCommitIndex ≤ (raftAppenderCommitIndex a m j).appender.serverCommitIndex := by
  by_cases h : assocGet a.commitIndexes m 0 < j
  · rw [raftAppenderCommitIndex_run a m j h]
    simp only
    rw [foldl_keep_last, commitRange_getLastD]
    omega
  · unfold raftAppenderCommitIndex
    rw [if_neg h]

theorem commitIndex_advances_to_sorted_median (a : RaftAppender) (member : String)
    (index : Int) (hraise : assocGet a.commitIndexes member 0 < index) :
    ((raftAppenderCommitIndex a member index).appender.serverCommitIndex
        = max a.serverCommitIndex (sortedMedian a member index))
      ∧ ((raftAppenderCommitIndex a member index).notified
          = commitRange a.serverCommitIndex (sortedMedian a member index))
      ∧ (raftAppenderCommitIndex a member index).notified.Chain' (· < ·)
      ∧ (∀ i ∈ (raftAppenderCommitIndex a member index).notified,
          a.serverCommitIndex < i ∧ i ≤ sortedMedian a member index)
      ∧ ((raftAppenderCommitIndex a member index).resolved
          = (raftAppenderCommitIndex a member index).notified.filter
              (fun i => a.commitChannels.contains i))
      ∧ (∀ m j, a.serverCommitIndex
          ≤ (raftAppenderCommitIndex a m j).appender.serverCommitIndex) := by
  have hrun := raftAppenderCommitIndex_run a member index hraise
  refine ⟨?_, ?_, ?_, ?_, ?_, ?_⟩
  · rw [hrun]
    simp only
    rw [foldl_keep_last, commitRange_getLastD]
  · rw [hrun]
  · rw [hrun]
    simp only
    exact (commitRangeAux_pairwise _ _).chain'
  · rw [hrun]
    simp only
    intro i hi
    exact mem_commitRange _ _ i hi
  · rw [hrun]
  · intro m j
    exact raftAppenderCommitIndex_mono a m j

/-- C1 witness: a concrete raising event. The leader has two peers; peer b
reports index 4 from recorded index 0, the recorded index of peer c is 2,
so the sorted padded slice is [2, 4] and the median entry at position
2 / 2 = 1 is 4; the server commitIndex at 1 advances to 4. -/
theorem commitIndex_advances_to_sorted_median_witness :
    (raftAppenderCommitIndex
        { members := ["b", "c"], commitIndexes := [("c", 2)],
          commitChannels := [2], serverCommitIndex := 1 } "b" 4).appender.serverCommitIndex
      = max 1 (sortedMedian
          { members := ["b", "c"], commitIndexes := [("c", 2)],
            commitChannels := [2], serverCommitIndex := 1 } "b" 4) := by
  exact (commitIndex_advances_to_sorted_median
    { members := ["b", "c"], commitIndexes := [("c", 2)],
      commitChannels := [2], serverCommitIndex := 1 } "b" 4 (by decide)).1

/-! ### Leader appender (appender.go): heartbeat futures

Go channels are modelled by identity: a channel value is either nil
(Option.none) or an allocated channel id (Option.some id). The struct
literal heartbeatFuture\x7b\x7d takes the Go zero value for every field:
a nil channel and the zero time.Time, whose UnixNano is modelled as 0. -/

structure heartbeatFuture where
  ch : Option Nat
  time : Int
  deriving Repr, DecidableEq

/-- Go: heartbeatFuture\x7b\x7d — the zero value pushed by heartbeat(). -/
def zeroHeartbeatFuture : heartbeatFuture :=
  { ch := none, time := 0 }

/-- Observable effects of one raftAppender.heartbeat() call. -/
structure HeartbeatCall where
  futures : List heartbeatFuture
  sentTimes : List Int
  resultChan : Option Nat
  immediateOk : Bool
  deriving Repr, DecidableEq

/-- Go raftAppender.heartbeat(): with no members return nil at once.
Otherwise allocate a fresh result channel ch, push the zero-value future
heartbeatFuture\x7b\x7d onto the FIFO list, send the future time (the zero
time) into the heartbeatCh of every member, and block receiving on ch. -/
def raftAppenderHeartbeat (memberCount : Nat) (futures : List heartbeatFuture)
    (freshChan : Nat) : HeartbeatCall :=
  if memberCount = 0 then
    { futures := futures, sentTimes := [], resultChan := none, immediateOk := true }
  else
    { futures := futures ++ [zeroHeartbeatFuture],
      sentTimes := List.replicate memberCount zeroHeartbeatFuture.time,
      resultChan := some freshChan,
      immediateOk := false }

/-- Go raftAppender.commitTime resolution loop: while the front future has
time.UnixNano() < commitTime, send on the channel of that future, close it,
and remove it from the FIFO list. Returns the remaining futures and the
channels that were signalled, in order. -/
def resolveHeartbeatFutures (commitTimeNanos : Int) :
    List heartbeatFuture → List heartbeatFuture × List (Option Nat)
  | [] => ([], [])
  | f :: rest =>
    if f.time < commitTimeNanos then
      let r := resolveHeartbeatFutures commitTimeNanos rest
      (r.1, f.ch :: r.2)
    else
      (f :: rest, [])

/-- C2: the claim says heartbeat() records a future carrying the request
timestamp and is answered, ok or quorumFail, through the channel of that
future. In the code the local result channel is created but never stored in
the future: the pushed future is the zero value with a nil channel and time
zero, so the resolution loop in commitTime signals a nil channel and the
caller, blocked on the fresh result channel, can never be reached. Shown on
a leader with one peer, fresh channel id 0 and any positive commit time. -/
theorem heartbeat_future_never_signals_caller :
    (raftAppenderHeartbeat 1 [] 0).resultChan = some 0
      ∧ (raftAppenderHeartbeat 1 [] 0).futures = [{ ch := none, time := 0 }]
      ∧ (raftAppenderHeartbeat 1 [] 0).sentTimes = [0]
      ∧ (resolveHeartbeatFutures 1 (raftAppenderHeartbeat 1 [] 0).futures).2 = [none]
      ∧ (∀ c ∈ (resolveHeartbeatFutures 1 (raftAppenderHeartbeat 1 [] 0).futures).2,
          c ≠ (raftAppenderHeartbeat 1 [] 0).resultChan) := by
  refine ⟨rfl, rfl, rfl, rfl, ?_⟩
  decide

/-! ### Member appender (appender.go): append response handling

A log entry carries its term; XXX_Size, the protobuf serialized size used
for batching, is modelled as an opaque size attribute of the entry. -/

structure RaftLogEntry where
  term : Int
  size : Nat
  deriving Repr, DecidableEq

structure IndexedEntry where
  index : Int
  entry : RaftLogEntry
  deriving Repr, DecidableEq

/-- Server core fields guarded by the readers-writer lock, as touched by
memberAppender.handleAppendResponse: term, leader (empty string for none)
and the role transition that becomeFollower schedules. -/
inductive RoleKind
  | follower
  | candidate
  | leader
  deriving Repr, DecidableEq

structure ServerCore where
  term : Int
  leader : String
  role : RoleKind
  deriving Repr, DecidableEq

/-- Per-member replication state of a memberAppender. -/
structure MemberAppenderState where
  snapshotIndex : Int
  prevTerm : Int
  nextIndex : Int
  matchIndex : Int
  failureCount : Nat
  deriving Repr, DecidableEq

structure AppendFalseResult where
  server : ServerCore
  member : MemberAppenderState
  requeued : Bool
  deriving Repr, DecidableEq

/-- Go memberAppender.handleAppendResponse, branch response.Succeeded ==
false. a.succeed() has already reset the failure count. Under the read
lock the response term is compared to the server term; on a greater term
the lock is upgraded and re-tested (double-checked locking; sequentially
the second test repeats the first), then setTerm(response.Term),
setLeader(empty) and becomeFollower run and the handler returns without
requeueing. Otherwise, if response.LastLogIndex < matchIndex, matchIndex
and nextIndex are reset from the response, and the append is requeued. -/
def handleAppendResponseFalse (srv : ServerCore) (m : MemberAppenderState)
    (respTerm respLastLogIndex : Int) : AppendFalseResult :=
  let m0 := { m with failureCount := 0 }
  if respTerm > srv.term then
    if respTerm > srv.term then
      { server := { term := respTerm, leader := "", role := RoleKind.follower },
        member := m0, requeued := false }
    else
      { server := srv, member := m0, requeued := false }
  else
    let m1 :=
      if respLastLogIndex < m0.matchIndex then
        { m0 with matchIndex := respLastLogIndex, nextIndex := respLastLogIndex + 1 }
      else m0
    { server := srv, member := m1, requeued := true }

/-- C3: on a rejected AppendResponse, if the response term exceeds the
current term the server steps down — it adopts the response term, clears
the leader and becomes Follower — so the term only ever increases;
otherwise, when the follower hint response.lastLogIndex is below
matchIndex, matchIndex is reset to the hint, nextIndex to matchIndex + 1,
and the append is requeued. -/
theorem handleAppendFalse_stepdown_or_hint (srv : ServerCore)
    (m : MemberAppenderState) (respTerm respLastLogIndex : Int) :
    (srv.term
        ≤ (handleAppendResponseFalse srv m respTerm respLastLogIndex).server.term)
      ∧ (respTerm > srv.term →
          (handleAppendResponseFalse srv m respTerm respLastLogIndex).server.term
              = respTerm
            ∧ (handleAppendResponseFalse srv m respTerm respLastLogIndex).server.leader
              = ""
            ∧ (handleAppendResponseFalse srv m respTerm respLastLogIndex).server.role
              = RoleKind.follower
            ∧ (handleAppendResponseFalse srv m respTerm respLastLogIndex).requeued
              = false)
      ∧ (respTerm ≤ srv.term →
          (handleAppendResponseFalse srv m respTerm respLastLogIndex).server = srv
            ∧ (handleAppendResponseFalse srv m respTerm respLastLogIndex).requeued
              = true
            ∧ (respLastLogIndex < m.matchIndex →
                (handleAppendResponseFalse srv m respTerm
                    respLastLogIndex).member.matchIndex = respLastLogIndex
                  ∧ (handleAppendResponseFalse srv m respTerm
                      respLastLogIndex).member.nextIndex = respLastLogIndex + 1)) := by
  unfold handleAppendResponseFalse
  by_cases h : respTerm > srv.term
  · rw [if_pos h, if_pos h]
    refine ⟨le_of_lt h, fun _ => ⟨rfl, rfl, rfl, rfl⟩, fun hle => absurd h (not_lt.mpr hle)⟩
  · rw [if_neg h]
    refine ⟨le_refl _, fun hgt => absurd hgt h, fun _ => ⟨rfl, rfl, fun hlt => ?_⟩⟩
    rw [if_pos hlt]
    exact ⟨rfl, rfl⟩

/-- C3 witness: a rejected response with term 7 against a leader at term 3
steps the server down to Follower at term 7. -/
theorem handleAppendFalse_stepdown_or_hint_witness :
    (handleAppendResponseFalse { term := 3, leader := "a", role := RoleKind.leader }
        { snapshotIndex := 0, prevTerm := 3, nextIndex := 5, matchIndex := 4,
          failureCount := 0 } 7 4).server.term = 7 := by
  exact ((handleAppendFalse_stepdown_or_hint
    { term := 3, leader := "a", role := RoleKind.leader }
    { snapshotIndex := 0, prevTerm := 3, nextIndex := 5, matchIndex := 4,
      failureCount := 0 } 7 4).2.1 (by decide)).1

structure AppendTrueResult where
  member : MemberAppenderState
  appendChSignal : Int
  deriving Repr, DecidableEq

/-- Go memberAppender.handleAppendResponse, branch response.Succeeded ==
true: reset the failure count, set matchIndex := response.LastLogIndex and
nextIndex := matchIndex + 1; if entries were sent, set prevTerm to
request.Entries[response.LastLogIndex - request.PrevLogIndex - 1].Term — a
slice access that panics when that offset is outside the entries slice,
modelled as none — then signal nextIndex on appendCh. -/
def handleAppendResponseTrue (m : MemberAppenderState) (reqPrevLogIndex : Int)
    (reqEntries : List RaftLogEntry) (respLastLogIndex : Int) :
    Option AppendTrueResult :=
  let m0 := { m with failureCount := 0 }
  let m1 := { m0 with matchIndex := respLastLogIndex,
                      nextIndex := respLastLogIndex + 1 }
  if reqEntries.length > 0 then
    let offset := respLastLogIndex - reqPrevLogIndex - 1
    if 0 ≤ offset ∧ offset < (reqEntries.length : Int) then
      some { member :=
               { m1 with prevTerm :=
                   (reqEntries.getD offset.toNat { term := 0, size := 0 }).term },
             appendChSignal := m1.nextIndex }
    else
      none
  else
    some { member := m1, appendChSignal := m1.nextIndex }

theorem getD_length_sub_one_eq_getLastD {α : Type} (es : List α) (d : α)
    (h : es ≠ []) : es.getD (es.length - 1) d = es.getLastD d := by
  induction es with
  | nil => simp at h
  | cons a t ih =>
    cases t with
    | nil => rfl
    | cons b u => simpa using ih (by simp)

/-- C6: on a successful AppendResponse the member appender sets matchIndex
to response.lastLogIndex and nextIndex to matchIndex + 1; under the
response contract lastLogIndex = prevLogIndex + len(entries) the entry
offset computed for the prevTerm update is len(entries) - 1, in bounds, and
prevTerm becomes the term of the last sent entry. Without that contract the
slice access can be out of bounds: a response with lastLogIndex 5 to a
request with prevLogIndex 0 carrying one entry computes offset 4 and
panics. -/
theorem handleAppendTrue_prevTerm_last_entry :
    (∀ m reqPrevLogIndex reqEntries respLastLogIndex,
        respLastLogIndex = reqPrevLogIndex + (reqEntries.length : Int) →
        reqEntries ≠ [] →
        handleAppendResponseTrue m reqPrevLogIndex reqEntries respLastLogIndex
          = some { member :=
                     { m with
                       failureCount := 0,
                       matchIndex := respLastLogIndex,
                       nextIndex := respLastLogIndex + 1,
                       prevTerm := (reqEntries.getLastD { term := 0, size := 0 }).term },
                   appendChSignal := respLastLogIndex + 1 })
      ∧ handleAppendResponseTrue
          { snapshotIndex := 0, prevTerm := 0, nextIndex := 1, matchIndex := 0,
            failureCount := 0 } 0 [{ term := 2, size := 1 }] 5 = none := by
  constructor
  · intro m p es r hr hne
    have hlen : 0 < es.length := List.length_pos.mpr hne
    unfold handleAppendResponseTrue
    rw [if_pos hlen]
    have hoff : 0 ≤ r - p - 1 ∧ r - p - 1 < (es.length : Int) := by omega
    rw [if_pos hoff]
    have htoNat : (r - p - 1).toNat = es.length - 1 := by omega
    rw [htoNat, getD_length_sub_one_eq_getLastD es _ hne]
  · decide

/-- C6 witness: a request with prevLogIndex 2 carrying two entries answered
with lastLogIndex 4 updates prevTerm to the term of the second entry. -/
theorem handleAppendTrue_prevTerm_last_entry_witness :
    handleAppendResponseTrue
        { snapshotIndex := 0, prevTerm := 1, nextIndex := 3, matchIndex := 2,
          failureCount := 0 } 2
        [{ term := 1, size := 4 }, { term := 2, size := 4 }] 4
      = some { member :=
                 { snapshotIndex := 0, prevTerm := 2, nextIndex := 5, matchIndex := 4,
                   failureCount := 0 },
               appendChSignal := 5 } := by
  exact handleAppendTrue_prevTerm_last_entry.1
    { snapshotIndex := 0, prevTerm := 1, nextIndex := 3, matchIndex := 2,
      failureCount := 0 } 2
    [{ term := 1, size := 4 }, { term := 2, size := 4 }] 4 (by decide) (by decide)

/-! ### Member appender (appender.go): batched entries requests -/

/-- Go: const maxBatchSize = 1024 * 1024. -/
def maxBatchSize : Nat := 1024 * 1024

/-- Modelled from the spec: the log reader collaborator (spec section 4.1,
the Log interface is outside src). After Reset(i), NextEntry returns the
entry stored at index i, or none when i is outside 1..lastIndex; the log is
the list of its entries with first index 1, so lastIndex is the length. -/
def logEntryAt (logEntries : List RaftLogEntry) (i : Int) : Option RaftLogEntry :=
  if 1 ≤ i ∧ i ≤ (logEntries.length : Int) then
    some (logEntries.getD (i - 1).toNat { term := 0, size := 0 })
  else
    none

/-- Go memberAppender.entriesAppendRequest, entry collection loop: while
nextIndex <= reader.LastIndex(), first try the front of the replication
queue — a front at exactly nextIndex is consumed and sent, a front below
nextIndex is stale and discarded, otherwise the entry is read from the log
reader at nextIndex. Each sent entry adds its serialized size; once the
accumulated size reaches maxBatchSize the loop stops after the entry that
crossed the bound. The result pairs each sent entry with the index it was
sent for. Fuel bounds the iteration count; every step either consumes the
queue or advances nextIndex, so the fuel used by the caller is never
exhausted. -/
def buildEntriesAux (logEntries : List RaftLogEntry) :
    Nat → List IndexedEntry → Int → Nat → List (Int × RaftLogEntry)
  | 0, _, _, _ => []
  | fuel + 1, queue, nextIndex, size =>
    if nextIndex ≤ (logEntries.length : Int) then
      match queue with
      | indexed :: rest =>
        if indexed.index = nextIndex then
          if maxBatchSize ≤ size + indexed.entry.size then
            [(indexed.index, indexed.entry)]
          else
            (indexed.index, indexed.entry) ::
              buildEntriesAux logEntries fuel rest (nextIndex + 1)
                (size + indexed.entry.size)
        else if indexed.index < nextIndex then
          buildEntriesAux logEntries fuel rest nextIndex size
        else
          match logEntryAt logEntries nextIndex with
          | some e =>
            if maxBatchSize ≤ size + e.size then
              [(nextIndex, e)]
            else
              (nextIndex, e) ::
                buildEntriesAux logEntries fuel queue (nextIndex + 1) (size + e.size)
          | none => []
      | [] =>
        match logEntryAt logEntries nextIndex with
        | some e =>
          if maxBatchSize ≤ size + e.size then
            [(nextIndex, e)]
          else
            (nextIndex, e) ::
              buildEntriesAux logEntries fuel [] (nextIndex + 1) (size + e.size)
        | none => []
    else []

/-- The indexed entries collected for one batched request, starting with
size 0 at the member nextIndex. -/
def entriesAppendRequestEntries (logEntries : List RaftLogEntry)
    (queue : List IndexedEntry) (nextIndex : Int) : List (Int × RaftLogEntry) :=
  buildEntriesAux logEntries (queue.length + logEntries.length + 2) queue nextIndex 0

/-- Wire AppendRequest as built by memberAppender.entriesAppendRequest. -/
structure AppendRequestMsg where
  term : Int
  leader : String
  prevLogIndex : Int
  prevLogTerm : Int
  entries : List RaftLogEntry
  commitIndex : Int
  deriving Repr, DecidableEq

/-- Go memberAppender.entriesAppendRequest: header fields from the server
and member state, entries from the collection loop. -/
def entriesAppendRequest (term : Int) (leader : String) (commitIndex : Int)
    (m : MemberAppenderState) (logEntries : List RaftLogEntry)
    (queue : List IndexedEntry) : AppendRequestMsg :=
  { term := term, leader := leader,
    prevLogIndex := m.nextIndex - 1, prevLogTerm := m.prevTerm,
    entries := (entriesAppendRequestEntries logEntries queue m.nextIndex).map Prod.snd,
    commitIndex := commitIndex }

/-- Serialized size of a list of entries, the sum of XXX_Size values. -/
def entriesSize (entries : List RaftLogEntry) : Nat :=
  (entries.map RaftLogEntry.size).sum

theorem buildEntriesAux_size_bound (logEntries : List RaftLogEntry) :
    ∀ (fuel : Nat) (queue : List IndexedEntry) (nextIndex : Int) (size : Nat),
      size < maxBatchSize →
      size + entriesSize ((buildEntriesAux logEntries fuel queue nextIndex size).map
          Prod.snd).dropLast < maxBatchSize := by
  intro fuel
  induction fuel with
  | zero =>
    intro queue nextIndex size hsize
    simpa [buildEntriesAux, entriesSize] using hsize
  | succ f ih =>
    intro queue nextIndex size hsize
    have hcons : ∀ (i : Int) (e : RaftLogEntry) (t : List (Int × RaftLogEntry)),
        size + e.size < maxBatchSize →
        size + e.size + entriesSize (t.map Prod.snd).dropLast < maxBatchSize →
        size + entriesSize (((i, e) :: t).map Prod.snd).dropLast < maxBatchSize := by
      intro i e t hx ht
      cases t with
      | nil =>
        simp only [List.map_cons, List.map_nil, List.dropLast_single, entriesSize,
          List.map_nil, List.sum_nil]
        omega
      | cons b u =>
        simp only [List.map_cons, List.dropLast_cons₂, entriesSize, List.map_cons,
          List.sum_cons] at ht ⊢
        omega
    cases queue with
    | cons indexed rest =>
      rw [buildEntriesAux]
      by_cases hle : nextIndex ≤ (logEntries.length : Int)
      · rw [if_pos hle]
        by_cases heq : indexed.index = nextIndex
        · rw [if_pos heq]
          by_cases hbig : maxBatchSize ≤ size + indexed.entry.size
          · rw [if_pos hbig]
            simpa [entriesSize] using hsize
          · rw [if_neg hbig]
            exact hcons _ _ _ (by omega)
              (ih rest (nextIndex + 1) (size + indexed.entry.size) (by omega))
        · rw [if_neg heq]
          by_cases hlt : indexed.index < nextIndex
          · rw [if_pos hlt]
            exact ih rest nextIndex size hsize
          · rw [if_neg hlt]
            cases hread : logEntryAt logEntries nextIndex with
            | none =>
              simp only [hread]
              simpa [entriesSize] using hsize
            | some e =>
              simp only [hread]
              by_cases hbig : maxBatchSize ≤ size + e.size
              · rw [if_pos hbig]
                simpa [entriesSize] using hsize
              · rw [if_neg hbig]
                exact hcons _ _ _ (by omega)
                  (ih (indexed :: rest) (nextIndex + 1) (size + e.size) (by omega))
      · rw [if_neg hle]
        simpa [entriesSize] using hsize
    | nil =>
      rw [buildEntriesAux]
      by_cases hle : nextIndex ≤ (logEntries.length : Int)
      · rw [if_pos hle]
        cases hread : logEntryAt logEntries nextIndex with
        | none =>
          simp only [hread]
          simpa [entriesSize] using hsize
        | some e =>
          simp only [hread]
          by_cases hbig : maxBatchSize ≤ size + e.size
          · rw [if_pos hbig]
            simpa [entriesSize] using hsize
          · rw [if_neg hbig]
            exact hcons _ _ _ (by omega)
              (ih [] (nextIndex + 1) (size + e.size) (by omega))
      · rw [if_neg hle]
        simpa [entriesSize] using hsize

/-- Concrete log holding one entry whose serialized size is 2 MiB. -/
def oversizedEntry : RaftLogEntry := { term := 1, size := 2097152 }

/-- Concrete member appender state at the start of replication. -/
def freshMemberState : MemberAppenderState :=
  { snapshotIndex := 0, prevTerm := 0, nextIndex := 1, matchIndex := 0,
    failureCount := 0 }

/-- C7 counterexample: the size check runs after an entry is added, so a
batched request built from a log whose single entry serializes to 2 MiB
carries 2097152 bytes of entries, exceeding maxBatchSize = 1048576. -/
theorem entriesBatch_exceeds_maxBatchSize :
    entriesSize (entriesAppendRequest 1 "a" 0 freshMemberState [oversizedEntry] []).entries
        = 2097152
      ∧ ¬ entriesSize
          (entriesAppendRequest 1 "a" 0 freshMemberState [oversizedEntry] []).entries
          ≤ maxBatchSize := by
  constructor
  · rfl
  · decide

/-- C7 amended: every entry of a batched AppendRequest except possibly the
last is added while the accumulated serialized size is still below
maxBatchSize, so the serialized size of the batch without its final entry
is below maxBatchSize = 1 MiB; the full batch can exceed the bound only by
the size of its final entry, and does exceed it when a single entry is
larger than maxBatchSize. This covers entries taken from the replication
queue and entries read from the log reader alike. -/
theorem entriesBatch_size_bound_except_last :
    ∀ (term : Int) (leader : String) (commitIndex : Int) (m : MemberAppenderState)
      (logEntries : List RaftLogEntry) (queue : List IndexedEntry),
      entriesSize (entriesAppendRequest term leader commitIndex m logEntries
          queue).entries.dropLast < maxBatchSize := by
  intro term leader commitIndex m logEntries queue
  have h := buildEntriesAux_size_bound logEntries
    (queue.length + logEntries.length + 2) queue m.nextIndex 0 (by decide)
  simpa [entriesAppendRequest, entriesAppendRequestEntries] using h

/-! ### Replication queue consistency (appender.go processEvents and
entriesAppendRequest) -/

/-- Go memberAppender.processEvents, entryCh case: the received entry is
pushed onto the back of the replication queue only when failureCount is
zero; otherwise the queue is left unchanged. -/
def memberAppenderOnEntry (failureCount : Nat) (queue : List IndexedEntry)
    (entry : IndexedEntry) : List IndexedEntry :=
  if failureCount = 0 then queue ++ [entry] else queue

theorem buildEntriesAux_indexes (logEntries : List RaftLogEntry) :
    ∀ (fuel : Nat) (queue : List IndexedEntry) (nextIndex : Int) (size : Nat),
      (buildEntriesAux logEntries fuel queue nextIndex size).map Prod.fst
        = commitRangeAux nextIndex
            (buildEntriesAux logEntries fuel queue nextIndex size).length := by
  intro fuel
  induction fuel with
  | zero =>
    intro queue nextIndex size
    simp [buildEntriesAux, commitRangeAux]
  | succ f ih =>
    intro queue nextIndex size
    cases queue with
    | cons indexed rest =>
      rw [buildEntriesAux]
      by_cases hle : nextIndex ≤ (logEntries.length : Int)
      · rw [if_pos hle]
        by_cases heq : indexed.index = nextIndex
        · rw [if_pos heq]
          by_cases hbig : maxBatchSize ≤ size + indexed.entry.size
          · rw [if_pos hbig]
            simp [heq, commitRangeAux]
          · rw [if_neg hbig]
            simp only [List.map_cons, List.length_cons, heq]
            rw [ih rest (nextIndex + 1) (size + indexed.entry.size)]
            rfl
        · rw [if_neg heq]
          by_cases hlt : indexed.index < nextIndex
          · rw [if_pos hlt]
            exact ih rest nextIndex size
          · rw [if_neg hlt]
            cases hread : logEntryAt logEntries nextIndex with
            | none =>
              simp only [hread]
              simp [commitRangeAux]
            | some e =>
              simp only [hread]
              by_cases hbig : maxBatchSize ≤ size + e.size
              · rw [if_pos hbig]
                simp [commitRangeAux]
              · rw [if_neg hbig]
                simp only [List.map_cons, List.length_cons]
                rw [ih (indexed :: rest) (nextIndex + 1) (size + e.size)]
                rfl
      · rw [if_neg hle]
        simp [commitRangeAux]
    | nil =>
      rw [buildEntriesAux]
      by_cases hle : nextIndex ≤ (logEntries.length : Int)
      · rw [if_pos hle]
        cases hread : logEntryAt logEntries nextIndex with
        | none =>
          simp only [hread]
          simp [commitRangeAux]
        | some e =>
          simp only [hread]
          by_cases hbig : maxBatchSize ≤ size + e.size
          · rw [if_pos hbig]
            simp [commitRangeAux]
          · rw [if_neg hbig]
            simp only [List.map_cons, List.length_cons]
            rw [ih [] (nextIndex + 1) (size + e.size)]
            rfl
      · rw [if_neg hle]
        simp [commitRangeAux]

/-- C10: an entry received on entryCh is cached in the replication queue
only when failureCount is zero; the entries collected for a batched request
carry consecutive indexes starting exactly at nextIndex — a queue front
above nextIndex leaves the queue untouched and the gap is read from the log
reader — and stale queue entries below nextIndex never appear in a
request. -/
theorem replication_queue_consistency :
    (∀ (failureCount : Nat) (queue : List IndexedEntry) (entry : IndexedEntry),
        failureCount ≠ 0 → memberAppenderOnEntry failureCount queue entry = queue)
      ∧ (∀ (queue : List IndexedEntry) (entry : IndexedEntry),
          memberAppenderOnEntry 0 queue entry = queue ++ [entry])
      ∧ (∀ (logEntries : List RaftLogEntry) (queue : List IndexedEntry)
            (nextIndex : Int),
          (entriesAppendRequestEntries logEntries queue nextIndex).map Prod.fst
            = commitRangeAux nextIndex
                (entriesAppendRequestEntries logEntries queue nextIndex).length)
      ∧ (∀ (logEntries : List RaftLogEntry) (queue : List IndexedEntry)
            (nextIndex : Int) (p : Int × RaftLogEntry),
          p ∈ entriesAppendRequestEntries logEntries queue nextIndex →
            nextIndex ≤ p.1) := by
  refine ⟨?_, ?_, ?_, ?_⟩
  · intro failureCount queue entry h
    simp [memberAppenderOnEntry, h]
  · intro queue entry
    simp [memberAppenderOnEntry]
  · intro logEntries queue nextIndex
    exact buildEntriesAux_indexes logEntries _ queue nextIndex 0
  · intro logEntries queue nextIndex p hp
    have hmem : p.1 ∈ (entriesAppendRequestEntries logEntries queue nextIndex).map
        Prod.fst := List.mem_map_of_mem Prod.fst hp
    rw [entriesAppendRequestEntries,
      buildEntriesAux_indexes logEntries _ queue nextIndex 0] at hmem
    exact ((mem_commitRangeAux _ nextIndex p.1).mp hmem).1

/-- C10 witness: with a nonzero failure count the queue is left unchanged,
shown at failure count 1 with an empty queue. -/
theorem replication_queue_consistency_witness :
    memberAppenderOnEntry 1 [] { index := 1, entry := { term := 1, size := 1 } }
      = [] :=
  replication_queue_consistency.1 1 [] { index := 1, entry := { term := 1, size := 1 } }
    (by decide)

/-! ### Follower role (roles/follower.go): heartbeat timer policy -/

/-- Wire AppendResponse fields used by the follower wrapper. -/
structure AppendResponseMsg where
  succeeded : Bool
  term : Int
  lastLogIndex : Int
  deriving Repr, DecidableEq

/-- Wire VoteResponse fields used by the follower wrapper. -/
structure VoteResponseMsg where
  voted : Bool
  term : Int
  deriving Repr, DecidableEq

/-- Go FollowerRole.Append: delegate to PassiveRole.Append (a role outside
src that validates the request and produces the response), then call
resetHeartbeatTimeout unconditionally. The Bool records whether the
heartbeat timer was reset by the wrapper. -/
def followerAppend (inner : AppendResponseMsg) : AppendResponseMsg × Bool :=
  (inner, true)

/-- Go FollowerRole.Install: delegate to PassiveRole.Install, then call
resetHeartbeatTimeout unconditionally, also when the install failed. -/
def followerInstall (innerOk : Bool) : Bool × Bool :=
  (innerOk, true)

/-- Go FollowerRole.Vote: delegate to ActiveRole.handleVote under the write
lock, then reset the heartbeat timer exactly when response.Voted is true. -/
def followerVote (inner : VoteResponseMsg) : VoteResponseMsg × Bool :=
  (inner, inner.voted)

/-- C8 counterexample: an Append rejected by the inner handler (succeeded =
false) still resets the follower heartbeat timer, and so does a failed
Install — the claim says an invalid Append or Install does not reset it. -/
theorem follower_invalid_append_resets_timer :
    (followerAppend { succeeded := false, term := 1, lastLogIndex := 0 }).2 = true
      ∧ (followerInstall false).2 = true := by
  exact ⟨rfl, rfl⟩

/-- C8 amended: the follower resets its heartbeat timer on every Append and
on every Install, whether or not the request was accepted as valid, and on
a Vote exactly when the vote was granted (voted = true). -/
theorem follower_timer_reset_policy :
    (∀ r, (followerAppend r).2 = true)
      ∧ (∀ ok, (followerInstall ok).2 = true)
      ∧ (∀ v, (followerVote v).2 = v.voted) := by
  exact ⟨fun _ => rfl, fun _ => rfl, fun _ => rfl⟩

/-! ### Single-node cluster paths (roles/follower.go Start, appender.go
append) -/

/-- Observable effect of FollowerRole.Start. -/
structure FollowerStartResult where
  becomeCandidate : Bool
  timerArmed : Bool
  deriving Repr, DecidableEq

/-- Go FollowerRole.Start: when the cluster has exactly one member,
schedule the transition to Candidate and return without starting the
active role or arming the heartbeat timer; otherwise start the active role
and arm the heartbeat timer. -/
def followerStart (memberCount : Nat) : FollowerStartResult :=
  if memberCount = 1 then
    { becomeCandidate := true, timerArmed := false }
  else
    { becomeCandidate := false, timerArmed := true }

/-- Outcome of raftAppender.append for one entry. -/
inductive AppendOutcome
  | committed (commitIndex : Int)
  | pending (registeredIndex : Int)
  deriving Repr, DecidableEq

/-- Go raftAppender.append(entry): with no peer members, take the write
lock, call setCommitIndex(entry.Index) and return nil immediately;
otherwise register a commit channel for entry.Index, push the entry to
every member appender and block on the channel. -/
def raftAppenderAppend (memberCount : Nat) (entryIndex : Int) : AppendOutcome :=
  if memberCount = 0 then
    AppendOutcome.committed entryIndex
  else
    AppendOutcome.pending entryIndex

/-- C9: a follower in a single-member cluster transitions to Candidate
immediately on Start without arming a heartbeat timeout, and on a leader
with no peers append(entry) immediately sets commitIndex to the entry
index and returns success. -/
theorem single_node_start_and_append :
    followerStart 1 = { becomeCandidate := true, timerArmed := false }
      ∧ (∀ entryIndex : Int,
          raftAppenderAppend 0 entryIndex = AppendOutcome.committed entryIndex) := by
  exact ⟨rfl, fun _ => rfl⟩

end Raft
